import Mathlib

/-!
Shallow embedding of the job-queue and track-layout core of the
Video-Sync-GUI application (files under src/qt_ui/), together with proofs
of the behavioural properties stated in its specification.

Conventions used throughout:
* QString is modelled as String.  QString::toLower is modelled with
  Char.toLower (ASCII folding), which agrees with Qt on the ASCII strings
  ("video", "audio", "subtitles", source keys, status strings) that the
  embedded code paths compare.
* std::vector and QList are modelled as List; std::map from QString is
  modelled as an association list List (String x String) with first-match
  lookup (the embedded code only uses find/iteration).
* C++ int is modelled as Int where index arithmetic can go negative, and
  Nat where a value is used as a list position after a bounds guard.
* UI widgets are not modelled; the functions below are the widget-free
  data transformations that the signal handlers perform, with their
  parameters (selected rows, dialog results, scan results, the engine)
  made explicit.
-/

/-- Track type enumeration, from track_widget/ui.hpp (enum class TrackType). -/
inductive TrackType where
  | Video
  | Audio
  | Subtitle
  deriving Repr, DecidableEq, Inhabited

/-- Track data structure, from track_widget/ui.hpp (struct TrackData).
C++ field defaults: ints 0, bools false, strings empty, type Video. -/
structure TrackData where
  id : Int := 0
  type : TrackType := TrackType.Video
  codecId : String := ""
  language : String := ""
  name : String := ""
  sourceKey : String := ""
  isDefault : Bool := false
  isForced : Bool := false
  summary : String := ""
  badges : String := ""
  properties : List (String × String) := []
  channels : Int := 0
  sampleRate : Int := 0
  width : Int := 0
  height : Int := 0
  originalPath : String := ""
  deriving Repr, DecidableEq, Inhabited

/-- Track info from a source file, from manual_selection_dialog/ui.hpp
(struct SourceTrackInfo).  The dialog and queue code also reads and writes
the fields isDefault, isForced, channels, sampleRate, width and height of
this struct, so they are included here with the zero defaults their uses
assume. -/
structure SourceTrackInfo where
  id : Int := 0
  type : String := ""
  codecId : String := ""
  language : String := ""
  name : String := ""
  description : String := ""
  originalPath : String := ""
  isDefault : Bool := false
  isForced : Bool := false
  channels : Int := 0
  sampleRate : Int := 0
  width : Int := 0
  height : Int := 0
  deriving Repr, DecidableEq, Inhabited

/-- Job data structure, from job_queue_dialog/ui.hpp (struct JobData). -/
structure JobData where
  name : String := ""
  sources : List (String × String) := []
  status : String := ""
  trackLayout : List TrackData := []
  attachmentSources : List String := []
  deriving Repr, DecidableEq, Inhabited

/-- First-match lookup in an association list; models std::map find for the
string-keyed maps of the embedding (keys are kept distinct by construction). -/
def lookupSource (sources : List (String × String)) (key : String) : Option String :=
  match sources with
  | [] => none
  | kv :: rest => if kv.1 = key then some kv.2 else lookupSource rest key

/-- QString::toLower restricted to ASCII folding (see file header note). -/
def qToLower (s : String) : String :=
  String.mk (s.data.map Char.toLower)

/-- ManualLogic::isBlockedVideo from manual_selection_dialog/logic.cpp:
only video from Source 1 (the reference) is allowed. -/
def isBlockedVideo (type sourceKey : String) : Bool :=
  type == "video" && sourceKey != "Source 1"

/-- The blocked flag computed per track in
ManualSelectionDialog::populateSources (manual_selection_dialog/ui.cpp):
video tracks from non-reference sources are blocked. -/
def populateBlocked (track : SourceTrackInfo) (sourceKey : String) : Bool :=
  qToLower track.type == "video" && sourceKey != "Source 1"

/-- Track type classification of
ManualSelectionDialog::onSourceTrackDoubleClicked: the lowered, trimmed
type string "video" maps to Video, "audio" to Audio, anything else
(e.g. "subtitles" from mkvmerge) to Subtitle. -/
def classifyType (type : String) : TrackType :=
  let typeStr := (qToLower type).trim
  if typeStr = "video" then TrackType.Video
  else if typeStr = "audio" then TrackType.Audio
  else TrackType.Subtitle

/-- Conversion of a SourceTrackInfo into a TrackData performed by
ManualSelectionDialog::onSourceTrackDoubleClicked before the track is
appended to the final list.  The source key is the key of the source list
the double-clicked item lives in. -/
def toTrackData (track : SourceTrackInfo) (sourceKey : String) : TrackData :=
  { id := track.id
    codecId := track.codecId
    language := track.language
    name := track.name
    summary := track.description
    isDefault := track.isDefault
    isForced := track.isForced
    originalPath := track.originalPath
    channels := track.channels
    sampleRate := track.sampleRate
    width := track.width
    height := track.height
    type := classifyType track.type
    sourceKey := sourceKey }

/-- The add-track path of the manual selection dialog, composed from the
source: populateSources marks a track blocked per populateBlocked,
SourceList::addTrackItem disables blocked items, the double-click
handler of SourceList emits trackDoubleClicked only for enabled items, and
onSourceTrackDoubleClicked appends the converted track to the final list.
So a double-click on a blocked track leaves the final list unchanged and a
double-click on an unblocked track appends its conversion. -/
def attemptAddFromSource (track : SourceTrackInfo) (sourceKey : String)
    (finalTracks : List TrackData) : List TrackData :=
  if populateBlocked track sourceKey then finalTracks
  else finalTracks ++ [toTrackData track sourceKey]

/-- The accepted branch of JobQueueLogic::configureJobAtRow
(job_queue_dialog/logic.cpp lines 251-256): when the manual selection
dialog is accepted the job stores the dialog layout and attachment
sources and its status is set to "Configured". -/
def configureAccept (job : JobData) (layout : List TrackData)
    (attach : List String) : JobData :=
  { job with trackLayout := layout, attachmentSources := attach,
             status := "Configured" }

/-- JobQueueLogic::getFinalJobs: collects the jobs whose status is
"Configured", in queue order. -/
def getFinalJobs : List JobData → List JobData
  | [] => []
  | job :: rest =>
      if job.status == "Configured" then job :: getFinalJobs rest
      else getFinalJobs rest

/-- Insertion step of the integer sort used below. -/
def insertSorted (x : Int) : List Int → List Int
  | [] => [x]
  | y :: ys => if x ≤ y then x :: y :: ys else y :: insertSorted x ys

/-- std::sort over a QList of int row indices (ascending), modelled as
insertion sort: over a total antisymmetric order on integers every
comparison sort produces the same list, so the choice of algorithm is
immaterial here. -/
def sortInts (l : List Int) : List Int :=
  l.foldr insertSorted []

/-- Exchange of two in-range positions of a list; models
std::swap(m_jobs[i], m_jobs[j]) after the bounds guards of the caller.
Out-of-range positions leave the list unchanged. -/
def swapIdx (l : List JobData) (i j : Nat) : List JobData :=
  match l[i]?, l[j]? with
  | some a, some b => (l.set i b).set j a
  | _, _ => l

/-- One iteration of the move-up loop of JobQueueLogic::moveJobs:
swap the row with its upper neighbour when the row is in range. -/
def upStep (js : List JobData) (row : Int) : List JobData :=
  if 0 < row ∧ row < (js.length : Int) then
    swapIdx js (row - 1).toNat row.toNat
  else js

/-- The move-up loop: rows processed in ascending order. -/
def upFold (js : List JobData) (rows : List Int) : List JobData :=
  rows.foldl upStep js

/-- One iteration of the move-down loop of JobQueueLogic::moveJobs:
swap the row with its lower neighbour when the row is in range. -/
def downStep (js : List JobData) (row : Int) : List JobData :=
  if 0 ≤ row ∧ row < (js.length : Int) - 1 then
    swapIdx js row.toNat (row + 1).toNat
  else js

/-- The move-down loop: rows processed in descending order (the C++ code
iterates the ascending-sorted list from its back; foldr applies the head
last, which is the same order). -/
def downFold (js : List JobData) (rows : List Int) : List JobData :=
  rows.foldr (fun row acc => downStep acc row) js

/-- JobQueueLogic::moveJobs (job_queue_dialog/logic.cpp lines 108-148,
without the table repopulation/reselection): empty selections are ignored;
the selection is sorted ascending; moving up is refused when the smallest
selected row is at most 0, moving down (any direction other than -1) is
refused when the largest selected row is at least size-1; otherwise each
selected row is swapped with its neighbour in the move direction,
ascending for up and descending for down.  headD/getLastD defaults are
never reached because of the emptiness guard. -/
def moveJobs (jobs : List JobData) (selectedRows : List Int)
    (direction : Int) : List JobData :=
  if selectedRows.isEmpty then jobs
  else
    let sorted := sortInts selectedRows
    if direction = -1 then
      if sorted.headD 0 ≤ 0 then jobs
      else upFold jobs sorted
    else
      if (jobs.length : Int) - 1 ≤ sorted.getLastD 0 then jobs
      else downFold jobs sorted

/-- One removal step of JobQueueLogic::removeSelectedJobs: erase an
in-range row. -/
def removeStep (js : List JobData) (row : Int) : List JobData :=
  if 0 ≤ row ∧ row < (js.length : Int) then js.eraseIdx row.toNat
  else js

/-- JobQueueLogic::removeSelectedJobs (without the table repopulation):
the selected rows are sorted descending and erased from the end first. -/
def removeJobs (jobs : List JobData) (selectedRows : List Int) : List JobData :=
  if selectedRows.isEmpty then jobs
  else (sortInts selectedRows).reverse.foldl removeStep jobs

/-- Comparator of JobQueueLogic::addJobs: case-insensitive name order. -/
def nameLt (a b : JobData) : Bool :=
  decide (qToLower a.name < qToLower b.name)

/-- Insertion step of the name sort used below. -/
def insertJob (j : JobData) : List JobData → List JobData
  | [] => [j]
  | k :: ks => if nameLt j k then j :: k :: ks else k :: insertJob j ks

/-- The std::sort call of JobQueueLogic::addJobs, modelled as an insertion
sort with the same comparator.  std::sort leaves the relative order of
case-insensitively equal names unspecified, so this embedding fixes one
concrete comparison sort; every theorem below that involves addJobs uses
only facts that hold for any sorted permutation (membership). -/
def sortJobsByName (jobs : List JobData) : List JobData :=
  jobs.foldr insertJob []

/-- JobQueueLogic::addJobs (without the table repopulation): append the
new jobs, then sort the whole queue by case-insensitive name. -/
def addJobs (jobs newJobs : List JobData) : List JobData :=
  sortJobsByName (jobs ++ newJobs)

/-- The queue state owned by JobQueueLogic: the job vector and the layout
clipboard (job_queue_dialog/logic.hpp, m_jobs and m_layoutClipboard). -/
structure QueueState where
  jobs : List JobData
  clipboard : Option JobData
  deriving Repr, DecidableEq

/-- Warning logged by JobQueueLogic::copyLayout when there is nothing to
copy. -/
def copyWarning : String :=
  "[WARNING] Cannot copy layout from unconfigured job"

/-- Log line of a successful JobQueueLogic::copyLayout. -/
def copyLogMsg (job : JobData) : String :=
  "Copied layout from " ++ job.name ++ " ("
    ++ toString job.trackLayout.length ++ " tracks)"

/-- JobQueueLogic::copyLayout: for an in-range row, a job with an empty
track layout only produces a warning; otherwise the job is stored in the
clipboard.  Returns the new state and the log lines emitted. -/
def copyOp (s : QueueState) (row : Int) : QueueState × List String :=
  if 0 ≤ row then
    match s.jobs[row.toNat]? with
    | none => (s, [])
    | some job =>
        if job.trackLayout = [] then (s, [copyWarning])
        else ({ s with clipboard := some job }, [copyLogMsg job])
  else (s, [])

/-- The per-row update of JobQueueLogic::pasteLayout: the target job keeps
its identity but takes the clipboard layout and attachment sources and
becomes "Configured". -/
def pasteInto (source job : JobData) : JobData :=
  { job with trackLayout := source.trackLayout,
             attachmentSources := source.attachmentSources,
             status := "Configured" }

/-- One selected row of JobQueueLogic::pasteLayout: in-range rows are
overwritten per pasteInto. -/
def pasteStep (source : JobData) (js : List JobData) (row : Int) : List JobData :=
  if 0 ≤ row then
    match js[row.toNat]? with
    | some job => js.set row.toNat (pasteInto source job)
    | none => js
  else js

/-- JobQueueLogic::pasteLayout (without the table repopulation and count
log): nothing happens when the clipboard is empty or holds an empty
layout; otherwise every selected in-range row is overwritten. -/
def pasteOp (s : QueueState) (selectedRows : List Int) : QueueState :=
  match s.clipboard with
  | none => s
  | some source =>
      if source.trackLayout = [] then s
      else { s with jobs := selectedRows.foldl (pasteStep source) s.jobs }

/-- JobQueueLogic::configureJobAtRow, state part: an out-of-range row or a
rejected dialog changes nothing; an accepted dialog stores the dialog
results per configureAccept.  The dialog outcome (none = rejected,
some (layout, attachments) = accepted with those results) is a
parameter. -/
def configureOp (s : QueueState) (row : Int)
    (outcome : Option (List TrackData × List String)) : QueueState :=
  if 0 ≤ row then
    match s.jobs[row.toNat]?, outcome with
    | some job, some la =>
        { s with jobs := s.jobs.set row.toNat (configureAccept job la.1 la.2) }
    | _, _ => s
  else s

/-- The states of the job-queue dialog reachable from an empty queue by
the operations of JobQueueLogic.  Jobs only enter the queue through
addJobs, and every caller (JobQueueDialog::onAddJobsClicked, dropEvent,
MainController::openJobQueue) constructs them with status
"Needs Configuration" and a default-initialised (empty) track layout. -/
inductive Reachable : QueueState → Prop where
  | init : Reachable { jobs := [], clipboard := none }
  | add {s : QueueState} {newJobs : List JobData} : Reachable s →
      (∀ j ∈ newJobs, j.status = "Needs Configuration" ∧ j.trackLayout = []) →
      Reachable { s with jobs := addJobs s.jobs newJobs }
  | remove {s : QueueState} (rows : List Int) : Reachable s →
      Reachable { s with jobs := removeJobs s.jobs rows }
  | move {s : QueueState} (rows : List Int) (direction : Int) : Reachable s →
      Reachable { s with jobs := moveJobs s.jobs rows direction }
  | configure {s : QueueState} (row : Int)
      (outcome : Option (List TrackData × List String)) : Reachable s →
      Reachable (configureOp s row outcome)
  | copy {s : QueueState} (row : Int) : Reachable s →
      Reachable (copyOp s row).1
  | paste {s : QueueState} (rows : List Int) : Reachable s →
      Reachable (pasteOp s rows)

/-- JSON values as built through the QJsonObject/QJsonArray API in
MainController::processJobs.  Objects keep their key/value pairs in
insertion order (the keys used here are pairwise distinct, so the sorted
internal representation of QJsonObject is observationally the same). -/
inductive JsonVal where
  | str : String → JsonVal
  | num : Int → JsonVal
  | jbool : Bool → JsonVal
  | arr : List JsonVal → JsonVal
  | obj : List (String × JsonVal) → JsonVal
  deriving Repr, Inhabited

/-- Key lookup in a JSON object (first match); none on non-objects. -/
def JsonVal.getKey : JsonVal → String → Option JsonVal
  | JsonVal.obj pairs, key => lookupJson pairs key
  | _, _ => none
where lookupJson : List (String × JsonVal) → String → Option JsonVal
  | [], _ => none
  | kv :: rest, key => if kv.1 = key then some kv.2 else lookupJson rest key

/-- Wire name of a track type, from the serialization switch of
MainController::processJobs. -/
def trackTypeStr : TrackType → String
  | TrackType.Audio => "audio"
  | TrackType.Subtitle => "subtitles"
  | TrackType.Video => "video"

/-- The config object serialized per track: is_default and is_forced are
always present, custom_name only when the name is non-empty, custom_lang
only when the language is non-empty and not "und". -/
def trackConfigJson (track : TrackData) : JsonVal :=
  JsonVal.obj
    ([("is_default", JsonVal.jbool track.isDefault),
      ("is_forced", JsonVal.jbool track.isForced)]
     ++ (if track.name ≠ "" then [("custom_name", JsonVal.str track.name)] else [])
     ++ (if track.language ≠ "" ∧ track.language ≠ "und"
         then [("custom_lang", JsonVal.str track.language)] else []))

/-- The per-track object appended to the final_tracks array by
MainController::processJobs. -/
def serializeTrack (track : TrackData) : JsonVal :=
  JsonVal.obj
    [("track_id", JsonVal.num track.id),
     ("source_key", JsonVal.str track.sourceKey),
     ("track_type", JsonVal.str (trackTypeStr track.type)),
     ("config", trackConfigJson track)]

/-- The layout payload of MainController::processJobs: the C++ code leaves
layoutJson as the empty string when job.trackLayout is empty and otherwise
serializes the layout document; none here stands for the empty string. -/
def layoutJsonOf (job : JobData) : Option JsonVal :=
  if job.trackLayout = [] then none
  else some (JsonVal.obj
    [("final_tracks", JsonVal.arr (job.trackLayout.map serializeTrack)),
     ("attachment_sources", JsonVal.arr (job.attachmentSources.map JsonVal.str))])

/-- The key of source number j, "Source j". -/
def sourceKeyName (j : Nat) : String :=
  "Source " ++ toString j

/-- The source-path collection loop of MainController::processJobs,
walking Source 1..Source 4 with the fuel counting the remaining loop
iterations: a present source is appended (and noted when it is Source 1),
a missing Source 1 does not stop the loop, a missing later source does. -/
def collectGo (lookup : String → Option String) : Nat → Nat → List String × Bool
  | 0, _ => ([], false)
  | fuel + 1, j =>
      match lookup (sourceKeyName j) with
      | some p =>
          let r := collectGo lookup fuel (j + 1)
          (p :: r.1, j == 1 || r.2)
      | none => if 1 < j then ([], false) else collectGo lookup fuel (j + 1)

/-- Build the ordered source-path list and the hasSource1 flag for a job
(MainController::processJobs lines 166-178). -/
def collectPaths (lookup : String → Option String) : List String × Bool :=
  collectGo lookup 4 1

/-- Result of the execution engine (VsgBridge::runJob). -/
structure EngineResult where
  success : Bool := false
  output_path : String := ""
  steps_completed : List String := []
  steps_skipped : List String := []
  error_message : String := ""
  deriving Repr, DecidableEq, Inhabited

/-- The execution engine as an opaque synchronous function of
(jobId, jobName, sourcePaths, layoutPayload); none as payload stands for
the empty layout string. -/
def EngineFn : Type :=
  String → String → List String → Option JsonVal → EngineResult

/-- Accumulated observable effects of a batch run: the counters, the log
lines, the engine invocations in order (with their full argument tuples),
and the work directories remembered for cleanup. -/
structure BatchAcc where
  completed : Nat := 0
  failed : Nat := 0
  logs : List String := []
  engineCalls : List (String × String × List String × Option JsonVal) := []
  workDirs : List String := []
  deriving Repr, Inhabited

/-- The job id of batch index i, "job_<timestamp>_<i>"; the per-job wall
clock read is modelled as the function clock from the batch index. -/
def jobIdOf (clock : Nat → Nat) (i : Nat) : String :=
  "job_" ++ toString (clock i) ++ "_" ++ toString i

/-- The processing status line logged at the start of each job. -/
def statusLogMsg (i total : Nat) (name : String) : String :=
  "\n=== Processing job " ++ toString (i + 1) ++ "/" ++ toString total
    ++ ": " ++ name ++ " ==="

/-- The log lines of a classified engine result (success path logs the
output and step lists, the skipped list only when non-empty; failure logs
the engine error message). -/
def resultLogs (result : EngineResult) : List String :=
  if result.success then
    ["[SUCCESS] Output: " ++ result.output_path,
     "Steps completed: " ++ String.intercalate ", " result.steps_completed]
    ++ (if result.steps_skipped ≠ []
        then ["Steps skipped: " ++ String.intercalate ", " result.steps_skipped]
        else [])
  else ["[FAILED] " ++ result.error_message]

/-- The body of the per-job loop of MainController::processJobs: log the
status line; collect the source paths; a job without Source 1 is counted
failed with an error log and nothing else happens for it; otherwise the
work directory is remembered, the layout payload built, the engine
invoked, and the result classified into the counters and log. -/
def processOne (engine : EngineFn) (clock : Nat → Nat) (tempRoot : String)
    (total i : Nat) (acc : BatchAcc) (job : JobData) : BatchAcc :=
  let acc1 := { acc with logs := acc.logs ++ [statusLogMsg i total job.name] }
  let sp := collectPaths (lookupSource job.sources)
  if sp.2 = false then
    { acc1 with failed := acc1.failed + 1,
                logs := acc1.logs ++ ["[ERROR] Job missing Source 1, skipping"] }
  else
    let jobId := jobIdOf clock i
    let workDir := tempRoot ++ "/" ++ jobId
    let payload := layoutJsonOf job
    let result := engine jobId job.name sp.1 payload
    let acc2 := { acc1 with
      workDirs := acc1.workDirs ++ [workDir],
      engineCalls := acc1.engineCalls ++ [(jobId, job.name, sp.1, payload)] }
    if result.success then
      { acc2 with completed := acc2.completed + 1,
                  logs := acc2.logs ++ resultLogs result }
    else
      { acc2 with failed := acc2.failed + 1,
                  logs := acc2.logs ++ resultLogs result }

/-- The job loop of MainController::processJobs, carrying the batch index. -/
def processJobsAux (engine : EngineFn) (clock : Nat → Nat) (tempRoot : String)
    (total : Nat) : Nat → BatchAcc → List JobData → BatchAcc
  | _, acc, [] => acc
  | i, acc, job :: rest =>
      processJobsAux engine clock tempRoot total (i + 1)
        (processOne engine clock tempRoot total i acc job) rest

/-- MainController::processJobs: with the bridge unavailable the whole
batch is refused with a single error; otherwise the jobs run in order and
a summary is appended. -/
def processJobs (avail : Bool) (engine : EngineFn) (clock : Nat → Nat)
    (tempRoot : String) (jobs : List JobData) : BatchAcc :=
  if avail = false then
    { logs := ["[ERROR] Bridge not available - cannot process jobs"] }
  else
    let acc := processJobsAux engine clock tempRoot jobs.length 0 {} jobs
    { acc with logs := acc.logs ++ ["\n=== Processing Complete ===",
        "Completed: " ++ toString acc.completed ++ ", Failed: "
          ++ toString acc.failed] }

/-- Track info produced by the inspection bridge (vsg TrackInfo); the
fields unused by the embedded code paths are omitted. -/
structure BridgeTrackInfo where
  id : Int := 0
  track_type : String := ""
  codec_id : String := ""
  language : String := "und"
  name : String := ""
  is_default : Bool := false
  is_forced : Bool := false
  channels : Int := 0
  sample_rate : Int := 0
  width : Int := 0
  height : Int := 0
  deriving Repr, DecidableEq, Inhabited

/-- Scan result of the inspection bridge (vsg MediaFileInfo); attachments
and duration are unused by the embedded code paths and omitted. -/
structure MediaFileInfo where
  path : String := ""
  tracks : List BridgeTrackInfo := []
  success : Bool := false
  error_message : String := ""
  deriving Repr, DecidableEq, Inhabited

/-- The description string built for a scanned track in
JobQueueLogic::configureJobAtRow (bridge branch): base
"<type> Track <id> (<language>)", then the name, a channel suffix for
audio and a resolution suffix for video. -/
def trackDescription (t : BridgeTrackInfo) : String :=
  let base := t.track_type ++ " Track " ++ toString t.id
    ++ " (" ++ t.language ++ ")"
  let base := if t.name ≠ "" then base ++ " - " ++ t.name else base
  let base := if t.track_type = "audio" ∧ 0 < t.channels
    then base ++ " [" ++ toString t.channels ++ "ch]" else base
  if t.track_type = "video" ∧ 0 < t.width
    then base ++ " [" ++ toString t.width ++ "x" ++ toString t.height ++ "]"
    else base

/-- Conversion of a scanned bridge track into a SourceTrackInfo, from the
successful-scan branch of JobQueueLogic::configureJobAtRow. -/
def convertTrack (path : String) (t : BridgeTrackInfo) : SourceTrackInfo :=
  { id := t.id
    type := t.track_type
    codecId := t.codec_id
    language := t.language
    name := t.name
    isDefault := t.is_default
    isForced := t.is_forced
    originalPath := path
    description := trackDescription t }

/-- The video placeholder substituted when a scan yields no tracks
(JobQueueLogic::configureJobAtRow fallback). -/
def placeholderVideo (path : String) : SourceTrackInfo :=
  { id := 0
    type := "video"
    codecId := "V_MPEG4/ISO/AVC"
    language := "und"
    description := "Video track (scan unavailable)"
    originalPath := path }

/-- The audio placeholder substituted when a scan yields no tracks
(JobQueueLogic::configureJobAtRow fallback). -/
def placeholderAudio (path : String) : SourceTrackInfo :=
  { id := 1
    type := "audio"
    codecId := "A_AAC"
    language := "eng"
    name := "English"
    description := "Audio track (scan unavailable)"
    originalPath := path }

/-- The per-source track list built by JobQueueLogic::configureJobAtRow:
scanned tracks are converted when the bridge is available and the scan
succeeded (an unavailable bridge or a failed scan leaves the list empty;
the failed-scan warning log line does not affect the list and is not
modelled); when no tracks resulted, for any reason, the two placeholders
are substituted. -/
def tracksForSource (avail : Bool) (info : MediaFileInfo)
    (path : String) : List SourceTrackInfo :=
  let tracks :=
    if avail ∧ info.success then info.tracks.map (convertTrack path) else []
  if tracks = [] then [placeholderVideo path, placeholderAudio path]
  else tracks

/-- The whole per-source map built by JobQueueLogic::configureJobAtRow
before the dialog opens: one entry per configured source of the job. -/
def buildTrackInfo (avail : Bool) (scan : String → MediaFileInfo)
    (sources : List (String × String)) : List (String × List SourceTrackInfo) :=
  sources.map (fun kv => (kv.1, tracksForSource avail (scan kv.2) kv.2))

/-- Per-job part of the queue invariant: a job with a non-empty stored
layout is necessarily "Configured" (layouts are only ever stored together
with that status). -/
def JobInv (j : JobData) : Prop :=
  j.trackLayout ≠ [] → j.status = "Configured"

/-- Queue invariant: every job satisfies JobInv and the clipboard, when
occupied, holds a job with a non-empty layout. -/
def StateInv (s : QueueState) : Prop :=
  (∀ j ∈ s.jobs, JobInv j) ∧
  (∀ c, s.clipboard = some c → c.trackLayout ≠ [])

/-- A video source track, used to instantiate theorems. -/
def demoVideoTrack : SourceTrackInfo :=
  { type := "video", id := 0, language := "und" }

/-- A job with two sources awaiting configuration. -/
def demoJob2src : JobData :=
  { name := "demo",
    sources := [("Source 1", "/a.mkv"), ("Source 2", "/b.mkv")],
    status := "Needs Configuration" }

/-- A freshly added job: needs configuration, empty layout. -/
def demoJobNeeds : JobData :=
  { name := "n", sources := [("Source 1", "/a.mkv")],
    status := "Needs Configuration" }

/-- A configured track with a custom name and language. -/
def demoTrackCfg : TrackData :=
  { id := 1, type := TrackType.Audio, language := "eng",
    name := "Commentary", sourceKey := "Source 1" }

/-- A configured job with a one-track layout. -/
def demoJobConfigured : JobData :=
  { name := "c", sources := [("Source 1", "/a.mkv")],
    status := "Configured", trackLayout := [demoTrackCfg] }

/-- A configured job whose sources lack Source 1. -/
def demoJobNoSource1 : JobData :=
  { name := "x", sources := [("Source 2", "/b.mkv")],
    status := "Configured", trackLayout := [demoTrackCfg] }

/-- A trivial engine used to instantiate the batch theorems. -/
def stubEngine : EngineFn :=
  fun _ _ _ _ => {}

/-- A three-job queue used to instantiate the move theorem. -/
def demoJobs3 : List JobData :=
  [{ name := "a" }, { name := "b" }, { name := "c" }]

theorem getFinalJobs_eq_filter (jobs : List JobData) :
    getFinalJobs jobs = jobs.filter (fun j => j.status == "Configured") := by
  induction jobs with
  | nil => rfl
  | cons j rest ih => simp only [getFinalJobs, List.filter_cons, ih]

/-- C5: getFinalJobs returns exactly the jobs whose status is
"Configured", as a subsequence of the queue (so in queue order), and never
a job whose status is "Needs Configuration".  Proved for every queue
content, hence in particular for every reachable queue state. -/
theorem getFinalJobs_spec (jobs : List JobData) :
    getFinalJobs jobs = jobs.filter (fun j => j.status == "Configured") ∧
    List.Sublist (getFinalJobs jobs) jobs ∧
    (∀ j ∈ getFinalJobs jobs, j.status = "Configured") ∧
    (∀ j ∈ jobs, j.status = "Configured" → j ∈ getFinalJobs jobs) ∧
    (∀ j ∈ getFinalJobs jobs, j.status ≠ "Needs Configuration") := by
  refine ⟨getFinalJobs_eq_filter jobs, ?_, ?_, ?_, ?_⟩
  · rw [getFinalJobs_eq_filter]; exact List.filter_sublist jobs
  · intro j hj
    rw [getFinalJobs_eq_filter] at hj
    simpa using (List.of_mem_filter hj)
  · intro j hj hc
    rw [getFinalJobs_eq_filter]
    exact List.mem_filter.mpr ⟨hj, by simpa using hc⟩
  · intro j hj
    rw [getFinalJobs_eq_filter] at hj
    have := List.of_mem_filter hj
    simp at this
    simp [this]

/-- Witness for C5 at a concrete queue. -/
theorem getFinalJobs_spec_witness :
    demoJobConfigured ∈ getFinalJobs [demoJobNeeds, demoJobConfigured] ∧
    demoJobConfigured.status = "Configured" :=
  ⟨by decide,
   (getFinalJobs_spec [demoJobNeeds, demoJobConfigured]).2.2.1
     demoJobConfigured (by decide)⟩

/-- C2 counterexample: accepting the manual-selection dialog with an empty
final track list still sets the job status to "Configured"
(ManualSelectionDialog::accept performs no validation and
JobQueueLogic::configureJobAtRow stores the result unconditionally), so an
empty accepted layout does not leave the job at "Needs Configuration". -/
theorem configure_empty_layout_cex :
    (((configureOp { jobs := [demoJobNeeds], clipboard := none } 0
        (some ([], []))).jobs.getD 0 default).status = "Configured") ∧
    (((configureOp { jobs := [demoJobNeeds], clipboard := none } 0
        (some ([], []))).jobs.getD 0 default).trackLayout = []) ∧
    "Configured" ≠ "Needs Configuration" := by
  refine ⟨rfl, rfl, by decide⟩

/-- C2 (amended): accepting a configuration stores the dialog layout and
sets the status to "Configured" unconditionally, even when the final
track list is empty; only a rejected dialog (or an out-of-range row)
leaves the state unchanged. -/
theorem configure_accept_unconditional (job : JobData) (layout : List TrackData)
    (attach : List String) (s : QueueState) (row : Int) :
    (configureAccept job layout attach).status = "Configured" ∧
    (configureAccept job layout attach).trackLayout = layout ∧
    configureOp s row none = s := by
  refine ⟨rfl, rfl, ?_⟩
  unfold configureOp
  split
  · cases s.jobs[row.toNat]? <;> rfl
  · rfl

/-- C1: in a job with at least two sources, a video-typed source track
(type string lowering to "video") from any source other than "Source 1"
is flagged blocked by populateSources and the double-click add path
leaves the final list unchanged, while the same track from "Source 1" is
not blocked and is appended to the final list. -/
theorem video_block_spec (job : JobData) (track : SourceTrackInfo)
    (sourceKey : String) (finalTracks : List TrackData)
    (htype : qToLower track.type = "video")
    (_hsrc : 2 ≤ job.sources.length) :
    (sourceKey ≠ "Source 1" →
      populateBlocked track sourceKey = true ∧
      attemptAddFromSource track sourceKey finalTracks = finalTracks) ∧
    (sourceKey = "Source 1" →
      populateBlocked track sourceKey = false ∧
      attemptAddFromSource track sourceKey finalTracks
        = finalTracks ++ [toTrackData track sourceKey]) := by
  constructor
  · intro hne
    have hb : populateBlocked track sourceKey = true := by
      simp [populateBlocked, htype, hne]
    exact ⟨hb, by simp [attemptAddFromSource, hb]⟩
  · intro heq
    have hb : populateBlocked track sourceKey = false := by
      simp [populateBlocked, heq]
    exact ⟨hb, by simp [attemptAddFromSource, hb]⟩

/-- Witness for C1: a concrete video track is rejected from "Source 2"
and appended from "Source 1". -/
theorem video_block_spec_witness :
    qToLower demoVideoTrack.type = "video" ∧
    2 ≤ demoJob2src.sources.length ∧
    attemptAddFromSource demoVideoTrack "Source 2" [] = [] ∧
    attemptAddFromSource demoVideoTrack "Source 1" []
      = [toTrackData demoVideoTrack "Source 1"] :=
  ⟨by decide, by decide,
   ((video_block_spec demoJob2src demoVideoTrack "Source 2" []
       (by decide) (by decide)).1 (by decide)).2,
   ((video_block_spec demoJob2src demoVideoTrack "Source 1" []
       (by decide) (by decide)).2 rfl).2⟩

/-- C10: the per-source selectable track list is never empty, and
whenever scanning produced no tracks (bridge unavailable, failed scan, or
a successful scan with an empty track list) it is exactly the two
placeholders: a video track with id 0 and language "und" and an audio
track with id 1 and language "eng", each described as scan-unavailable. -/
theorem catalog_fallback_spec (avail : Bool) (info : MediaFileInfo)
    (path : String) :
    tracksForSource avail info path ≠ [] ∧
    ((avail = false ∨ info.success = false ∨ info.tracks = []) →
      tracksForSource avail info path
        = [placeholderVideo path, placeholderAudio path]) ∧
    (placeholderVideo path).id = 0 ∧
    (placeholderVideo path).type = "video" ∧
    (placeholderVideo path).language = "und" ∧
    (placeholderVideo path).description = "Video track (scan unavailable)" ∧
    (placeholderAudio path).id = 1 ∧
    (placeholderAudio path).type = "audio" ∧
    (placeholderAudio path).language = "eng" ∧
    (placeholderAudio path).description = "Audio track (scan unavailable)" := by
  refine ⟨?_, ?_, rfl, rfl, rfl, rfl, rfl, rfl, rfl, rfl⟩
  · unfold tracksForSource
    by_cases h : (if avail ∧ info.success
        then info.tracks.map (convertTrack path) else []) = []
    · rw [if_pos h]; simp
    · rw [if_neg h]; exact h
  · intro h
    unfold tracksForSource
    have hnil : (if avail ∧ info.success then info.tracks.map (convertTrack path)
        else []) = [] := by
      rcases h with h | h | h
      · simp [h]
      · simp [h]
      · simp [h]
    simp [hnil]

/-- Witness for C10: an unavailable bridge yields the two placeholders. -/
theorem catalog_fallback_spec_witness :
    (false = false ∨ ({} : MediaFileInfo).success = false
        ∨ ({} : MediaFileInfo).tracks = []) ∧
    tracksForSource false {} "/a.mkv"
      = [placeholderVideo "/a.mkv", placeholderAudio "/a.mkv"] :=
  ⟨Or.inl rfl,
   (catalog_fallback_spec false {} "/a.mkv").2.1 (Or.inl rfl)⟩

theorem collectGo_snd_false (lookup : String → Option String) (fuel j : Nat)
    (hj : 2 ≤ j) : (collectGo lookup fuel j).2 = false := by
  induction fuel generalizing j with
  | zero => rfl
  | succ n ih =>
      unfold collectGo
      cases hl : lookup (sourceKeyName j) with
      | some p =>
          have hj1 : j ≠ 1 := by omega
          have hne : (j == 1) = false := by
            simpa using hj1
          simp [hne, ih (j + 1) (by omega)]
      | none =>
          have : 1 < j := by omega
          simp [this]

theorem collectPaths_no_source1 (lookup : String → Option String)
    (h : lookup "Source 1" = none) : (collectPaths lookup).2 = false := by
  have h1 : lookup (sourceKeyName 1) = none := by
    have : sourceKeyName 1 = "Source 1" := by decide
    rw [this]; exact h
  unfold collectPaths
  unfold collectGo
  rw [h1]
  simp only [Nat.lt_irrefl, if_neg (by omega : ¬ 1 < 1)]
  exact collectGo_snd_false lookup 3 2 (by omega)

/-- C7: a job whose sources lack "Source 1" is skipped during the batch:
its step only increments the failed counter and logs the status line and
the error line; the completed counter, the engine-call list and the
work-directory list are untouched (so the engine is never invoked for
it), and processing continues with the remaining jobs. -/
theorem batch_skips_missing_source1 (engine : EngineFn) (clock : Nat → Nat)
    (tempRoot : String) (total i : Nat) (acc : BatchAcc) (job : JobData)
    (rest : List JobData)
    (h : lookupSource job.sources "Source 1" = none) :
    processJobsAux engine clock tempRoot total i acc (job :: rest)
      = processJobsAux engine clock tempRoot total (i + 1)
          { acc with failed := acc.failed + 1,
                     logs := acc.logs ++ [statusLogMsg i total job.name,
                       "[ERROR] Job missing Source 1, skipping"] } rest := by
  have h2 : (collectPaths (lookupSource job.sources)).2 = false :=
    collectPaths_no_source1 _ h
  have hp : processOne engine clock tempRoot total i acc job
      = { acc with failed := acc.failed + 1,
                   logs := acc.logs ++ [statusLogMsg i total job.name,
                     "[ERROR] Job missing Source 1, skipping"] } := by
    unfold processOne
    simp [h2, List.append_assoc]
  rw [show processJobsAux engine clock tempRoot total i acc (job :: rest)
      = processJobsAux engine clock tempRoot total (i + 1)
          (processOne engine clock tempRoot total i acc job) rest from rfl, hp]

/-- Witness for C7 at a concrete one-job batch. -/
theorem batch_skips_missing_source1_witness :
    lookupSource demoJobNoSource1.sources "Source 1" = none ∧
    processJobsAux stubEngine (fun _ => 0) ".temp" 1 0 {} [demoJobNoSource1]
      = processJobsAux stubEngine (fun _ => 0) ".temp" 1 1
          { failed := 1,
            logs := [statusLogMsg 0 1 demoJobNoSource1.name,
              "[ERROR] Job missing Source 1, skipping"] } [] :=
  ⟨rfl,
   batch_skips_missing_source1 stubEngine (fun _ => 0) ".temp" 1 0 {}
     demoJobNoSource1 [] rfl⟩

theorem getKey_config_custom_name (track : TrackData) :
    (trackConfigJson track).getKey "custom_name"
      = if track.name = "" then none else some (JsonVal.str track.name) := by
  unfold trackConfigJson JsonVal.getKey
  by_cases hl : track.language ≠ "" ∧ track.language ≠ "und" <;>
    by_cases hn : track.name = "" <;>
      simp [hn, hl, JsonVal.getKey.lookupJson]

theorem getKey_config_custom_lang (track : TrackData) :
    (trackConfigJson track).getKey "custom_lang"
      = if track.language = "" ∨ track.language = "und" then none
        else some (JsonVal.str track.language) := by
  unfold trackConfigJson JsonVal.getKey
  by_cases hl : track.language ≠ "" ∧ track.language ≠ "und"
  · have hr : ¬(track.language = "" ∨ track.language = "und") :=
      fun hor => hor.elim hl.1 hl.2
    by_cases hn : track.name = "" <;>
      simp [hn, hl, hr, JsonVal.getKey.lookupJson]
  · have hr : track.language = "" ∨ track.language = "und" := by
      by_contra hc
      push_neg at hc
      exact hl hc
    by_cases hn : track.name = "" <;>
      simp [hn, hl, hr, JsonVal.getKey.lookupJson]

/-- C8: the layout payload handed to the engine by the batch loop is
layoutJsonOf of the job (recorded verbatim in the engine-call list); it is
the empty serialization (none) exactly when the job layout is empty, and
otherwise a document whose final_tracks array follows the layout order
and whose per-track config omits custom_name for empty names and
custom_lang for empty or "und" languages. -/
theorem layout_payload_spec (job : JobData) :
    (∀ (engine : EngineFn) (clock : Nat → Nat) (tempRoot : String)
        (total i : Nat) (acc : BatchAcc),
      (collectPaths (lookupSource job.sources)).2 = true →
      (processOne engine clock tempRoot total i acc job).engineCalls
        = acc.engineCalls ++ [(jobIdOf clock i, job.name,
            (collectPaths (lookupSource job.sources)).1, layoutJsonOf job)]) ∧
    (layoutJsonOf job = none ↔ job.trackLayout = []) ∧
    (∀ doc, layoutJsonOf job = some doc →
      ∃ ts, doc.getKey "final_tracks" = some (JsonVal.arr ts) ∧
        ts.length = job.trackLayout.length ∧
        doc.getKey "attachment_sources"
          = some (JsonVal.arr (job.attachmentSources.map JsonVal.str)) ∧
        ∀ k, k < job.trackLayout.length →
          ∃ tj, ts[k]? = some tj ∧
            tj.getKey "track_id"
              = some (JsonVal.num (job.trackLayout.getD k default).id) ∧
            tj.getKey "source_key"
              = some (JsonVal.str (job.trackLayout.getD k default).sourceKey) ∧
            tj.getKey "track_type"
              = some (JsonVal.str
                  (trackTypeStr (job.trackLayout.getD k default).type)) ∧
            ∃ cfg, tj.getKey "config" = some cfg ∧
              (cfg.getKey "custom_name"
                = if (job.trackLayout.getD k default).name = "" then none
                  else some (JsonVal.str (job.trackLayout.getD k default).name)) ∧
              (cfg.getKey "custom_lang"
                = if (job.trackLayout.getD k default).language = ""
                      ∨ (job.trackLayout.getD k default).language = "und"
                  then none
                  else some (JsonVal.str
                      (job.trackLayout.getD k default).language))) := by
  refine ⟨?_, ?_, ?_⟩
  · intro engine clock tempRoot total i acc hs
    unfold processOne
    simp only [hs]
    norm_num
    split <;> rfl
  · unfold layoutJsonOf
    by_cases h : job.trackLayout = [] <;> simp [h]
  · intro doc hdoc
    unfold layoutJsonOf at hdoc
    by_cases h : job.trackLayout = []
    · simp [h] at hdoc
    · rw [if_neg h] at hdoc
      injection hdoc with hdoc
      subst hdoc
      refine ⟨job.trackLayout.map serializeTrack, ?_, by simp, ?_, ?_⟩
      · simp [JsonVal.getKey, JsonVal.getKey.lookupJson]
      · simp [JsonVal.getKey, JsonVal.getKey.lookupJson]
      · intro k hk
        have hget : (job.trackLayout.map serializeTrack)[k]?
            = some (serializeTrack (job.trackLayout.getD k default)) := by
          rw [List.getElem?_map]
          rw [List.getElem?_eq_getElem hk]
          simp [List.getD_eq_getElem?_getD, List.getElem?_eq_getElem hk]
        refine ⟨serializeTrack (job.trackLayout.getD k default), hget, ?_, ?_, ?_,
          trackConfigJson (job.trackLayout.getD k default), ?_,
          getKey_config_custom_name _, getKey_config_custom_lang _⟩ <;>
          simp [serializeTrack, JsonVal.getKey, JsonVal.getKey.lookupJson]

/-- Witness for C8 at a concrete configured job with one named track. -/
theorem layout_payload_spec_witness :
    (collectPaths (lookupSource demoJobConfigured.sources)).2 = true ∧
    (processOne stubEngine (fun _ => 0) ".temp" 1 0 {} demoJobConfigured).engineCalls
      = [(jobIdOf (fun _ => 0) 0, demoJobConfigured.name,
          (collectPaths (lookupSource demoJobConfigured.sources)).1,
          layoutJsonOf demoJobConfigured)] :=
  ⟨rfl,
   (layout_payload_spec demoJobConfigured).1 stubEngine (fun _ => 0) ".temp"
     1 0 {} rfl⟩

theorem mem_insertJob {x j : JobData} {l : List JobData}
    (h : x ∈ insertJob j l) : x = j ∨ x ∈ l := by
  induction l with
  | nil =>
      simp [insertJob] at h
      exact Or.inl h
  | cons k ks ih =>
      unfold insertJob at h
      split at h
      · simpa using h
      · rcases List.mem_cons.mp h with h | h
        · exact Or.inr (by simp [h])
        · rcases ih h with h | h
          · exact Or.inl h
          · exact Or.inr (List.mem_cons_of_mem _ h)

theorem mem_sortJobsByName {x : JobData} {l : List JobData}
    (h : x ∈ sortJobsByName l) : x ∈ l := by
  induction l with
  | nil => simp [sortJobsByName] at h
  | cons k ks ih =>
      unfold sortJobsByName at h
      rcases mem_insertJob h with h | h
      · simp [h]
      · exact List.mem_cons_of_mem _ (ih h)

theorem mem_swapIdx {x : JobData} {l : List JobData} {i j : Nat}
    (h : x ∈ swapIdx l i j) : x ∈ l := by
  unfold swapIdx at h
  split at h
  case h_1 a b ha hb =>
      rcases List.mem_or_eq_of_mem_set h with h | h
      · rcases List.mem_or_eq_of_mem_set h with h | h
        · exact h
        · subst h; exact List.getElem?_mem hb
      · subst h; exact List.getElem?_mem ha
  case h_2 => exact h

theorem mem_upFold {x : JobData} {rows : List Int} {js : List JobData}
    (h : x ∈ upFold js rows) : x ∈ js := by
  induction rows generalizing js with
  | nil => simpa [upFold] using h
  | cons r rows ih =>
      have h1 : x ∈ upStep js r := ih (by simpa [upFold] using h)
      unfold upStep at h1
      split at h1
      · exact mem_swapIdx h1
      · exact h1

theorem mem_downFold {x : JobData} {rows : List Int} {js : List JobData}
    (h : x ∈ downFold js rows) : x ∈ js := by
  induction rows generalizing js with
  | nil => simpa [downFold] using h
  | cons r rows ih =>
      have h1 : x ∈ downStep (downFold js rows) r := by
        simpa [downFold] using h
      have h2 : x ∈ downFold js rows := by
        unfold downStep at h1
        split at h1
        · exact mem_swapIdx h1
        · exact h1
      exact ih h2

theorem mem_moveJobs {x : JobData} {jobs : List JobData} {rows : List Int}
    {direction : Int} (h : x ∈ moveJobs jobs rows direction) : x ∈ jobs := by
  simp only [moveJobs] at h
  split at h
  · exact h
  · split at h
    · split at h
      · exact h
      · exact mem_upFold h
    · split at h
      · exact h
      · exact mem_downFold h

theorem mem_removeStep {x : JobData} {js : List JobData} {row : Int}
    (h : x ∈ removeStep js row) : x ∈ js := by
  unfold removeStep at h
  split at h
  · exact (List.eraseIdx_sublist js row.toNat).mem h
  · exact h

theorem mem_removeFold {x : JobData} {rows : List Int} {js : List JobData}
    (h : x ∈ rows.foldl removeStep js) : x ∈ js := by
  induction rows generalizing js with
  | nil => simpa using h
  | cons r rows ih => exact mem_removeStep (ih (by simpa using h))

theorem mem_removeJobs {x : JobData} {jobs : List JobData} {rows : List Int}
    (h : x ∈ removeJobs jobs rows) : x ∈ jobs := by
  unfold removeJobs at h
  split at h
  · exact h
  · exact mem_removeFold h

theorem mem_pasteFold {x : JobData} {c : JobData} {rows : List Int}
    {js : List JobData} (h : x ∈ rows.foldl (pasteStep c) js) :
    x ∈ js ∨ ∃ j0, x = pasteInto c j0 := by
  induction rows generalizing js with
  | nil => exact Or.inl (by simpa using h)
  | cons r rows ih =>
      rcases ih (by simpa using h) with h1 | h1
      · unfold pasteStep at h1
        split at h1
        · split at h1
          case h_1 job hjob =>
              rcases List.mem_or_eq_of_mem_set h1 with h2 | h2
              · exact Or.inl h2
              · exact Or.inr ⟨job, h2⟩
          case h_2 => exact Or.inl h1
        · exact Or.inl h1
      · exact Or.inr h1

/-- The queue invariant holds in every reachable state. -/
theorem reachable_inv {s : QueueState} (h : Reachable s) : StateInv s := by
  induction h with
  | init =>
      exact ⟨by intro j hj; simp at hj, by intro c hc; simp at hc⟩
  | add hs hnew ih =>
      refine ⟨?_, ih.2⟩
      intro j hj
      rcases List.mem_append.mp (mem_sortJobsByName hj) with h1 | h1
      · exact ih.1 j h1
      · intro hne
        exact absurd (hnew j h1).2 hne
  | remove rows hs ih =>
      exact ⟨fun j hj => ih.1 j (mem_removeJobs hj), ih.2⟩
  | move rows direction hs ih =>
      exact ⟨fun j hj => ih.1 j (mem_moveJobs hj), ih.2⟩
  | configure row outcome hs ih =>
      unfold configureOp
      split
      · split
        case h_1 job la hjob =>
            refine ⟨?_, ih.2⟩
            intro j hj
            rcases List.mem_or_eq_of_mem_set hj with h1 | h1
            · exact ih.1 j h1
            · intro _
              rw [h1]
              rfl
        case h_2 => exact ih
      · exact ih
  | copy row hs ih =>
      unfold copyOp
      split
      · split
        case h_1 => exact ih
        case h_2 job hjob =>
            split
            · exact ih
            case isFalse hne =>
                refine ⟨ih.1, ?_⟩
                intro c hc
                have : job = c := by simpa using hc
                rw [← this]
                exact hne
      · exact ih
  | paste rows hs ih =>
      unfold pasteOp
      split
      case h_1 => exact ih
      case h_2 source hsource =>
          split
          · exact ih
          · refine ⟨?_, ih.2⟩
            intro j hj
            rcases mem_pasteFold hj with h1 | h1
            · exact ih.1 j h1
            · obtain ⟨j0, hj0⟩ := h1
              intro _
              rw [hj0]
              rfl

/-- C6: in a reachable state with an empty clipboard, copying from a job
that is not "Configured" or has an empty layout changes nothing but the
log (the warning is emitted, the clipboard stays empty), and a subsequent
paste with the clipboard still empty leaves every job exactly as it was.
The status-based half of the guard follows from the reachable-state
invariant: an unconfigured job always has an empty stored layout. -/
theorem copy_unconfigured_then_paste_noop (s : QueueState) (row : Int)
    (job : JobData) (hreach : Reachable s)
    (hclip : s.clipboard = none)
    (hrow : 0 ≤ row)
    (hjob : s.jobs[row.toNat]? = some job)
    (hcond : job.status ≠ "Configured" ∨ job.trackLayout = []) :
    copyOp s row = (s, [copyWarning]) ∧
    ∀ sel : List Int, pasteOp s sel = s := by
  have hinv := reachable_inv hreach
  have hempty : job.trackLayout = [] := by
    rcases hcond with hst | hl
    · by_contra hne
      exact hst (hinv.1 job (List.getElem?_mem hjob) hne)
    · exact hl
  constructor
  · unfold copyOp
    rw [if_pos hrow, hjob]
    simp [hempty]
  · intro sel
    unfold pasteOp
    rw [hclip]

/-- Witness for C6: a freshly added unconfigured job in a reachable
one-job queue. -/
theorem copy_unconfigured_then_paste_noop_witness :
    (({ jobs := addJobs [] [demoJobNeeds], clipboard := none } :
        QueueState).jobs[(0 : Int).toNat]? = some demoJobNeeds) ∧
    copyOp { jobs := addJobs [] [demoJobNeeds], clipboard := none } 0
      = ({ jobs := addJobs [] [demoJobNeeds], clipboard := none }, [copyWarning]) ∧
    pasteOp { jobs := addJobs [] [demoJobNeeds], clipboard := none } [0]
      = { jobs := addJobs [] [demoJobNeeds], clipboard := none } := by
  have hr : Reachable { jobs := addJobs [] [demoJobNeeds], clipboard := none } :=
    Reachable.add Reachable.init
      (by intro j hj; simp at hj; rw [hj]; exact ⟨rfl, rfl⟩)
  have h := copy_unconfigured_then_paste_noop
    { jobs := addJobs [] [demoJobNeeds], clipboard := none } 0 demoJobNeeds
    hr rfl (by decide) (by decide) (Or.inl (by decide))
  exact ⟨by decide, h.1, h.2 [0]⟩

theorem pasteFold_getElem (c : JobData) (sel : List Int) (js : List JobData)
    (k : Nat) :
    (sel.foldl (pasteStep c) js)[k]? = js[k]? ∨
    ∃ j0, (sel.foldl (pasteStep c) js)[k]? = some (pasteInto c j0) := by
  induction sel generalizing js with
  | nil => exact Or.inl rfl
  | cons r sel ih =>
      have hstep : (pasteStep c js r)[k]? = js[k]? ∨
          ∃ j0, (pasteStep c js r)[k]? = some (pasteInto c j0) := by
        unfold pasteStep
        split
        · cases hjob : js[r.toNat]? with
          | none => exact Or.inl rfl
          | some job =>
              by_cases hk : k = r.toNat
              · subst hk
                exact Or.inr ⟨job,
                  List.getElem?_set_self (List.getElem?_eq_some.mp hjob).1⟩
              · exact Or.inl (List.getElem?_set_ne (fun he => hk he.symm))
        · exact Or.inl rfl
      have hrest := ih (pasteStep c js r)
      rcases hrest with h1 | h1
      · rcases hstep with h2 | h2
        · exact Or.inl (by simp only [List.foldl_cons]; rw [h1, h2])
        · obtain ⟨j0, hj0⟩ := h2
          exact Or.inr ⟨j0, by simp only [List.foldl_cons]; rw [h1, hj0]⟩
      · obtain ⟨j0, hj0⟩ := h1
        exact Or.inr ⟨j0, by simp only [List.foldl_cons]; rw [hj0]⟩

/-- C9: in every reachable state an occupied clipboard holds a non-empty
layout, and consequently every job position a paste touches ends with a
non-empty layout and status "Configured" (positions it does not touch are
unchanged) - paste can never mark a job "Configured" with zero tracks. -/
theorem clipboard_paste_invariant (s : QueueState) (hreach : Reachable s) :
    (∀ c, s.clipboard = some c → c.trackLayout ≠ []) ∧
    (∀ (sel : List Int) (k : Nat),
      (pasteOp s sel).jobs[k]? = s.jobs[k]? ∨
      ∃ j, (pasteOp s sel).jobs[k]? = some j ∧
        j.trackLayout ≠ [] ∧ j.status = "Configured") := by
  have hinv := reachable_inv hreach
  refine ⟨hinv.2, ?_⟩
  intro sel k
  unfold pasteOp
  cases hcl : s.clipboard with
  | none => exact Or.inl rfl
  | some c =>
      have hc : c.trackLayout ≠ [] := hinv.2 c hcl
      dsimp only
      rw [if_neg hc]
      rcases pasteFold_getElem c sel s.jobs k with h1 | h1
      · exact Or.inl h1
      · obtain ⟨j0, hj0⟩ := h1
        exact Or.inr ⟨pasteInto c j0, hj0, hc, rfl⟩

/-- Witness for C9 at the reachable initial state. -/
theorem clipboard_paste_invariant_witness :
    (pasteOp { jobs := [], clipboard := none } [0]).jobs[0]? =
      ({ jobs := [], clipboard := none } : QueueState).jobs[0]? ∨
    ∃ j, (pasteOp { jobs := [], clipboard := none } [0]).jobs[0]? = some j ∧
      j.trackLayout ≠ [] ∧ j.status = "Configured" :=
  (clipboard_paste_invariant { jobs := [], clipboard := none }
    Reachable.init).2 [0] 0

theorem insertSorted_of_le {x y : Int} (ys : List Int) (h : x ≤ y) :
    insertSorted x (y :: ys) = x :: y :: ys := by
  simp [insertSorted, h]

theorem sortInts_of_pairwise {l : List Int}
    (h : List.Pairwise (· < ·) l) : sortInts l = l := by
  induction l with
  | nil => rfl
  | cons x t ih =>
      have ht := List.Pairwise.of_cons h
      have hx : ∀ y ∈ t, x < y := fun y hy => List.rel_of_pairwise_cons h hy
      unfold sortInts
      simp only [List.foldr_cons]
      have : sortInts t = t := ih ht
      unfold sortInts at this
      rw [this]
      cases t with
      | nil => rfl
      | cons y ys => exact insertSorted_of_le ys (le_of_lt (hx y (by simp)))

theorem swapIdx_length (l : List JobData) (i j : Nat) :
    (swapIdx l i j).length = l.length := by
  unfold swapIdx
  split <;> simp

theorem upStep_length (js : List JobData) (row : Int) :
    (upStep js row).length = js.length := by
  unfold upStep
  split
  · exact swapIdx_length js _ _
  · rfl

theorem upFold_length (rows : List Int) (js : List JobData) :
    (upFold js rows).length = js.length := by
  induction rows generalizing js with
  | nil => rfl
  | cons r rows ih =>
      simp only [upFold, List.foldl_cons]
      rw [show List.foldl upStep (upStep js r) rows = upFold (upStep js r) rows
          from rfl]
      rw [ih (upStep js r), upStep_length]

theorem downStep_length (js : List JobData) (row : Int) :
    (downStep js row).length = js.length := by
  unfold downStep
  split
  · exact swapIdx_length js _ _
  · rfl

theorem downFold_length (rows : List Int) (js : List JobData) :
    (downFold js rows).length = js.length := by
  induction rows generalizing js with
  | nil => rfl
  | cons r rows ih =>
      simp only [downFold, List.foldr_cons]
      rw [show List.foldr (fun row acc => downStep acc row) js rows
          = downFold js rows from rfl]
      rw [downStep_length, ih js]

theorem swapIdx_getElem?_left {l : List JobData} {i j : Nat}
    (hi : i < l.length) (hj : j < l.length) (hij : i ≠ j) :
    (swapIdx l i j)[i]? = l[j]? := by
  unfold swapIdx
  rw [List.getElem?_eq_getElem hi, List.getElem?_eq_getElem hj]
  dsimp only
  rw [List.getElem?_set_ne (Ne.symm hij),
      List.getElem?_set_self (by simpa using hi)]

theorem swapIdx_getElem?_right {l : List JobData} {i j : Nat}
    (hi : i < l.length) (hj : j < l.length) :
    (swapIdx l i j)[j]? = l[i]? := by
  unfold swapIdx
  rw [List.getElem?_eq_getElem hi, List.getElem?_eq_getElem hj]
  dsimp only
  rw [List.getElem?_set_self (by simpa using hj)]

theorem swapIdx_getElem?_other {l : List JobData} {i j p : Nat}
    (hpi : p ≠ i) (hpj : p ≠ j) :
    (swapIdx l i j)[p]? = l[p]? := by
  unfold swapIdx
  split
  · rw [List.getElem?_set_ne (Ne.symm hpj), List.getElem?_set_ne (Ne.symm hpi)]
  · rfl

theorem upFold_untouched (rows : List Int) (js : List JobData) (b : Int)
    (hb : ∀ r ∈ rows, b ≤ r) (p : Nat) (hp : (p : Int) < b - 1) :
    (upFold js rows)[p]? = js[p]? := by
  induction rows generalizing js with
  | nil => rfl
  | cons r rows ih =>
      have hr : b ≤ r := hb r (by simp)
      have hstep : (upStep js r)[p]? = js[p]? := by
        unfold upStep
        split
        case isTrue hg =>
            have h1 : p ≠ (r - 1).toNat := by omega
            have h2 : p ≠ r.toNat := by omega
            exact swapIdx_getElem?_other h1 h2
        case isFalse => rfl
      calc (upFold js (r :: rows))[p]?
          = (upFold (upStep js r) rows)[p]? := rfl
        _ = (upStep js r)[p]? := ih (upStep js r) (fun x hx => hb x (by simp [hx]))
        _ = js[p]? := hstep

theorem downFold_untouched (rows : List Int) (js : List JobData) (b : Int)
    (hb : ∀ r ∈ rows, b ≤ r) (p : Nat) (hp : (p : Int) < b) :
    (downFold js rows)[p]? = js[p]? := by
  induction rows generalizing js with
  | nil => rfl
  | cons r rows ih =>
      have hr : b ≤ r := hb r (by simp)
      have hmid : (downFold js rows)[p]? = js[p]? :=
        ih js (fun x hx => hb x (by simp [hx]))
      have hstep : (downStep (downFold js rows) r)[p]?
          = (downFold js rows)[p]? := by
        unfold downStep
        split
        case isTrue hg =>
            have h1 : p ≠ r.toNat := by omega
            have h2 : p ≠ (r + 1).toNat := by omega
            exact swapIdx_getElem?_other h1 h2
        case isFalse => rfl
      calc (downFold js (r :: rows))[p]?
          = (downStep (downFold js rows) r)[p]? := rfl
        _ = (downFold js rows)[p]? := hstep
        _ = js[p]? := hmid

theorem upFold_spec (rows : List Int) (js : List JobData)
    (hpw : List.Pairwise (· < ·) rows)
    (hbd : ∀ r ∈ rows, 0 < r ∧ r < (js.length : Int)) :
    ∀ r ∈ rows, (upFold js rows)[(r - 1).toNat]? = js[r.toNat]? := by
  induction rows generalizing js with
  | nil => intro r hr; simp at hr
  | cons r rest ih =>
      have hlt : ∀ x ∈ rest, r < x := fun x hx => List.rel_of_pairwise_cons hpw hx
      have hr0 := hbd r (by simp)
      have hguard : 0 < r ∧ r < (js.length : Int) := hr0
      have hup : upStep js r = swapIdx js (r - 1).toNat r.toNat := by
        unfold upStep
        rw [if_pos hguard]
      have hlen : (upStep js r).length = js.length := upStep_length js r
      intro x hx
      rcases List.mem_cons.mp hx with hxr | hxrest
      · subst hxr
        have h1 : (upFold js (x :: rest))[(x - 1).toNat]?
            = (upStep js x)[(x - 1).toNat]? := by
          rw [show upFold js (x :: rest) = upFold (upStep js x) rest from rfl]
          exact upFold_untouched rest (upStep js x) (x + 1)
            (fun y hy => by have := hlt y hy; omega) _ (by omega)
        rw [h1, hup]
        have hi : (x - 1).toNat < js.length := by omega
        have hj : x.toNat < js.length := by omega
        exact swapIdx_getElem?_left hi hj (by omega)
      · have hbd2 : ∀ y ∈ rest, 0 < y ∧ y < ((upStep js r).length : Int) := by
          intro y hy
          rw [hlen]
          exact hbd y (by simp [hy])
        have h2 := ih (upStep js r) (List.Pairwise.of_cons hpw) hbd2 x hxrest
        rw [show upFold js (r :: rest) = upFold (upStep js r) rest from rfl, h2,
            hup]
        have hxgt : r < x := hlt x hxrest
        have hxbd := hbd x (by simp [hxrest])
        exact swapIdx_getElem?_other (by omega) (by omega)

theorem downFold_spec (rows : List Int) (js : List JobData)
    (hpw : List.Pairwise (· < ·) rows)
    (hbd : ∀ r ∈ rows, 0 ≤ r ∧ r < (js.length : Int) - 1) :
    ∀ r ∈ rows, (downFold js rows)[(r + 1).toNat]? = js[r.toNat]? := by
  induction rows generalizing js with
  | nil => intro r hr; simp at hr
  | cons r rest ih =>
      have hlt : ∀ x ∈ rest, r < x := fun x hx => List.rel_of_pairwise_cons hpw hx
      have hr0 := hbd r (by simp)
      have hmidlen : (downFold js rest).length = js.length := downFold_length rest js
      have hguard : 0 ≤ r ∧ r < ((downFold js rest).length : Int) - 1 := by
        rw [hmidlen]; exact hr0
      have hdown : downStep (downFold js rest) r
          = swapIdx (downFold js rest) r.toNat (r + 1).toNat := by
        unfold downStep
        rw [if_pos hguard]
      intro x hx
      rcases List.mem_cons.mp hx with hxr | hxrest
      · subst hxr
        have hmid : (downFold js rest)[x.toNat]? = js[x.toNat]? :=
          downFold_untouched rest js (x + 1)
            (fun y hy => by have := hlt y hy; omega) _ (by omega)
        have hi : x.toNat < (downFold js rest).length := by
          rw [hmidlen]; omega
        have hj : (x + 1).toNat < (downFold js rest).length := by
          rw [hmidlen]; omega
        calc (downFold js (x :: rest))[(x + 1).toNat]?
            = (downStep (downFold js rest) x)[(x + 1).toNat]? := rfl
          _ = (downFold js rest)[x.toNat]? := by
              rw [hdown]; exact swapIdx_getElem?_right hi hj
          _ = js[x.toNat]? := hmid
      · have hbd2 : ∀ y ∈ rest, 0 ≤ y ∧ y < ((js.length : Int)) - 1 :=
          fun y hy => hbd y (by simp [hy])
        have h2 := ih js (List.Pairwise.of_cons hpw) hbd2 x hxrest
        have hxgt : r < x := hlt x hxrest
        calc (downFold js (r :: rest))[(x + 1).toNat]?
            = (downStep (downFold js rest) r)[(x + 1).toNat]? := rfl
          _ = (downFold js rest)[(x + 1).toNat]? := by
              rw [hdown]
              exact swapIdx_getElem?_other (by omega) (by omega)
          _ = js[x.toNat]? := h2

theorem pairwise_first_le {x : Int} {t : List Int}
    (h : List.Pairwise (· < ·) (x :: t)) : ∀ y ∈ x :: t, x ≤ y := by
  intro y hy
  rcases List.mem_cons.mp hy with hy | hy
  · omega
  · exact le_of_lt (List.rel_of_pairwise_cons h hy)

theorem pairwise_le_getLastD {l : List Int}
    (h : List.Pairwise (· < ·) l) : ∀ x ∈ l, x ≤ l.getLastD 0 := by
  induction l with
  | nil => intro x hx; simp at hx
  | cons y t ih =>
      intro x hx
      cases t with
      | nil =>
          simp at hx
          simp [hx, List.getLastD]
      | cons z zs =>
          have htail := ih (List.Pairwise.of_cons h)
          have hstep : (y :: z :: zs).getLastD 0 = (z :: zs).getLastD 0 := rfl
          rcases List.mem_cons.mp hx with hx | hx
          · have hz : y < z := List.rel_of_pairwise_cons h (by simp)
            have := htail z (by simp)
            rw [hstep, hx]
            omega
          · rw [hstep]
            exact htail x hx

theorem getLastD_mem {l : List Int} (h : l ≠ []) : l.getLastD 0 ∈ l := by
  induction l with
  | nil => exact absurd rfl h
  | cons y t ih =>
      cases t with
      | nil => simp [List.getLastD]
      | cons z zs =>
          have hstep : (y :: z :: zs).getLastD 0 = (z :: zs).getLastD 0 := rfl
          rw [hstep]
          exact List.mem_cons_of_mem _ (ih (by simp))

/-- C4: for a non-empty selection of distinct in-range queue rows (given
in ascending order, as the callers produce and the function re-sorts) and
direction -1 (up) or +1 (down), the move is all-or-none: when the
extremal selected row is at the boundary in the move direction the queue
is returned unchanged, and otherwise every selected row lands exactly one
position over in the move direction (so partial moves never occur). -/
theorem moveJobs_all_or_none (jobs : List JobData) (sel : List Int)
    (direction : Int)
    (hne : sel ≠ [])
    (hpw : List.Pairwise (· < ·) sel)
    (hbd : ∀ r ∈ sel, 0 ≤ r ∧ r < (jobs.length : Int))
    (hdir : direction = -1 ∨ direction = 1) :
    ((direction = -1 ∧ (0 : Int) ∈ sel) ∨
        (direction = 1 ∧ ((jobs.length : Int) - 1) ∈ sel) →
      moveJobs jobs sel direction = jobs) ∧
    (direction = -1 → (0 : Int) ∉ sel →
      ∀ r ∈ sel,
        (moveJobs jobs sel direction)[(r - 1).toNat]? = jobs[r.toNat]?) ∧
    (direction = 1 → ((jobs.length : Int) - 1) ∉ sel →
      ∀ r ∈ sel,
        (moveJobs jobs sel direction)[(r + 1).toNat]? = jobs[r.toNat]?) := by
  cases sel with
  | nil => exact absurd rfl hne
  | cons h t =>
      have hsort : sortInts (h :: t) = h :: t := sortInts_of_pairwise hpw
      have hmv : moveJobs jobs (h :: t) direction
          = if direction = -1 then
              (if h ≤ 0 then jobs else upFold jobs (h :: t))
            else
              (if (jobs.length : Int) - 1 ≤ (h :: t).getLastD 0 then jobs
               else downFold jobs (h :: t)) := by
        unfold moveJobs
        rw [hsort]
        simp
      refine ⟨?_, ?_, ?_⟩
      · rintro (⟨hd, h0⟩ | ⟨hd, hlast⟩)
        · subst hd
          rw [hmv, if_pos rfl, if_pos (pairwise_first_le hpw 0 h0)]
        · subst hd
          rw [hmv, if_neg (by omega),
              if_pos (pairwise_le_getLastD hpw _ hlast)]
      · intro hd h0 r hr
        subst hd
        have hpos : ∀ y ∈ h :: t, 0 < y ∧ y < (jobs.length : Int) := by
          intro y hy
          have hb := hbd y hy
          have hy0 : y ≠ 0 := fun he => h0 (he ▸ hy)
          exact ⟨by omega, hb.2⟩
        have hh : ¬ h ≤ 0 := by
          have := hpos h (by simp)
          omega
        rw [hmv, if_pos rfl, if_neg hh]
        exact upFold_spec (h :: t) jobs hpw hpos r hr
      · intro hd hlast r hr
        subst hd
        have hbnd : ∀ y ∈ h :: t, 0 ≤ y ∧ y < (jobs.length : Int) - 1 := by
          intro y hy
          have hb := hbd y hy
          have hyn : y ≠ (jobs.length : Int) - 1 := fun he => hlast (he ▸ hy)
          exact ⟨hb.1, by omega⟩
        have hlastlt : (h :: t).getLastD 0 < (jobs.length : Int) - 1 :=
          (hbnd _ (getLastD_mem (by simp))).2
        rw [hmv, if_neg (by omega), if_neg (by omega)]
        exact downFold_spec (h :: t) jobs hpw hbnd r hr

/-- Witness for C4: moving rows 1 and 2 of a three-job queue up by one
shifts each into the row above. -/
theorem moveJobs_all_or_none_witness :
    ([1, 2] : List Int) ≠ [] ∧
    (moveJobs demoJobs3 [1, 2] (-1))[(0 : Nat)]? = demoJobs3[(1 : Nat)]? ∧
    (moveJobs demoJobs3 [1, 2] (-1))[(1 : Nat)]? = demoJobs3[(2 : Nat)]? :=
  ⟨by decide,
   (moveJobs_all_or_none demoJobs3 [1, 2] (-1) (by decide) (by decide)
       (by decide) (Or.inl rfl)).2.1 rfl (by decide) 1 (by decide),
   (moveJobs_all_or_none demoJobs3 [1, 2] (-1) (by decide) (by decide)
       (by decide) (Or.inl rfl)).2.1 rfl (by decide) 2 (by decide)⟩
